import Mathlib

/-!
Verification of the chunked-transfer core of the azure-sdk-for-python
storage file client (`sdk/storage/azure-storage-file/azure/storage/file/
_file_client.py` and its async twin), together with the Range Partitioner,
Conditional Request Guard and Paged Result Cursor components described in
the design spec.  Python integers are modelled as `Nat`/`Int`, byte strings
as `List Nat`, raised exceptions as `Except String`, and network effects as
returned request descriptions: a function that raises before building any
request description performs no network call.
-/

namespace AzureTransfer

/-- A chunk of a transfer: one bounded byte range handled by one request.
`start_offset` and `length` mirror the implementation representation
(`total_size = 0` gives `start = 0, length = 0`); the inclusive end offset
of a non-empty chunk is `start_offset + length - 1`. -/
structure ChunkDescriptor where
  index : Nat
  start_offset : Nat
  length : Nat
  is_final : Bool
deriving DecidableEq, Repr

/-- The inclusive end offset of a descriptor, as a mathematical integer so
that a zero-length descriptor at offset 0 reads `[0, -1]`. -/
def ChunkDescriptor.end_inclusive (d : ChunkDescriptor) : Int :=
  (d.start_offset : Int) + (d.length : Int) - 1

/-- Descriptor `d` covers absolute byte position `b`. -/
def ChunkDescriptor.covers (d : ChunkDescriptor) (b : Nat) : Prop :=
  d.start_offset ≤ b ∧ b < d.start_offset + d.length

instance (d : ChunkDescriptor) (b : Nat) : Decidable (d.covers b) := by
  unfold ChunkDescriptor.covers; infer_instance

/-- The per-chunk response metadata collected by the upload helper: the
service answers each range PUT with an etag and a last-modified timestamp
(modelled as a `Nat` tick count), keyed by the chunk index. -/
structure ChunkResult where
  index : Nat
  etag : String
  last_modified : Nat
deriving DecidableEq, Repr

/-! ### Stable sorting, as Python's `sorted`

Both `_upload_file_helper` (sort by `last_modified`) and the Coordinator's
result aggregation (sort by chunk `index`) use Python `sorted`, which is a
stable ascending sort.  `sortByKey` is a stable insertion sort: an element
is inserted after every earlier element whose key is strictly smaller and
before every earlier element whose key is greater or equal, which preserves
the original relative order of equal keys exactly as `sorted` does. -/

def insertByKey {α : Type} (k : α → Nat) (a : α) : List α → List α
  | [] => [a]
  | x :: xs => if k x < k a then x :: insertByKey k a xs else a :: x :: xs

def sortByKey {α : Type} (k : α → Nat) : List α → List α
  | [] => []
  | x :: xs => insertByKey k x (sortByKey k xs)

/-- Evaluation of `sorted(responses, key=lambda r: r.get('last_modified'))[-1]` from
`_upload_file_helper` (`_file_client.py:89`, `_file_client_async.py:83`):
the element reported to the caller after a multi-chunk upload. -/
def finalUploadResponse (responses : List ChunkResult) : Option ChunkResult :=
  (sortByKey (fun r => r.last_modified) responses).getLast?

/-! ### Range Partitioner

`upload_data_chunks` / `FileChunkUploader` (the `_shared/uploads` module)
are not part of the sources under verification; the partitioning they
perform is modelled from the spec (§4.1). -/

/-- Chunk layout for a known remaining size, chunk size `cpred + 1`
(passing the predecessor keeps the chunk size positive by construction).
Each chunk is full-sized except the last, which is truncated to the
remainder and flagged final. -/
def chunksFrom (cpred : Nat) : Nat → Nat → Nat → List ChunkDescriptor
  | idx, start, remaining =>
    if remaining ≤ cpred + 1 then
      [⟨idx, start, remaining, true⟩]
    else
      ⟨idx, start, cpred + 1, false⟩ ::
        chunksFrom cpred (idx + 1) (start + (cpred + 1)) (remaining - (cpred + 1))
  termination_by _ _ remaining => remaining
  decreasing_by simp_wf; omega

/-- Modelled from the spec: `plan` of the Range Partitioner (§4.1), the
component realised by `_shared/uploads`, which is absent from the sources.
`chunk_size = 0` is a configuration error (`none`), rejected before any
network call; a size at or below the single-shot threshold gives one
descriptor spanning the whole resource; a larger size is split into
ceil-many chunks. -/
def plan (total_size chunk_size single_shot_threshold : Nat) :
    Option (List ChunkDescriptor) :=
  match chunk_size with
  | 0 => none
  | cpred + 1 =>
    if total_size ≤ single_shot_threshold then
      some [⟨0, 0, total_size, true⟩]
    else
      some (chunksFrom cpred 0 0 total_size)

/-- The list of descriptors starts at absolute offset `s` and is
gap-free: each descriptor begins exactly where the previous one ended. -/
def contiguousFrom (s : Nat) : List ChunkDescriptor → Prop
  | [] => True
  | d :: rest => d.start_offset = s ∧ contiguousFrom (s + d.length) rest

def sumLen (ds : List ChunkDescriptor) : Nat :=
  (ds.map ChunkDescriptor.length).sum

/-- Chunk layout used by the upload helper for a known positive size
(`upload_data_chunks(total_size=size, chunk_size=max_range_size)`); a zero
chunk size yields no layout. -/
def chunksFor (total chunk_size : Nat) : List ChunkDescriptor :=
  match chunk_size with
  | 0 => []
  | cpred + 1 => chunksFrom cpred 0 0 total

/-! ### The file upload path (`_file_client.py:44-91, 444-474`)

Network effects are modelled as a list of request descriptions: the
`create_file` call and one range PUT per chunk, each chunk request carrying
the slice of the stream it uploads. -/

/-- One request issued by the upload path. -/
inductive UploadAction where
  | createFile (size : Nat)
  | uploadChunk (d : ChunkDescriptor) (payload : List Nat)
deriving DecidableEq, Repr

/-- Embedding of `_upload_file_helper` (`_file_client.py:44-91`): rejects a missing or
negative size with `ValueError`, issues `create_file(size)`, returns at
once for `size == 0`, and otherwise uploads the stream in chunks of
`chunk_size` (= `file_settings.max_range_size`) bytes. -/
def uploadFileHelper (stream : List Nat) (size : Option Int) (chunk_size : Nat) :
    Except String (List UploadAction) :=
  match size with
  | none => .error "A content size must be specified for a File."
  | some s =>
    if s < 0 then .error "A content size must be specified for a File."
    else if s = 0 then .ok [.createFile 0]
    else
      .ok (.createFile s.toNat ::
        (chunksFor s.toNat chunk_size).map
          (fun d => .uploadChunk d ((stream.drop d.start_offset).take d.length)))

/-- The caller-supplied `data` argument of `upload_file`: a `bytes` object,
or a file-like / iterable source whose length is or is not determinable. -/
inductive UploadSource where
  | bytesData (data : List Nat)
  | streamData (content : List Nat) (known : Bool)
deriving DecidableEq, Repr

/-- Modelled from the spec: `get_length` of `_shared/request_handlers`
(absent from the sources) determines the source length when possible
(`len()` for bytes, seek/tell for a seekable stream) and returns `None`
for a streamed source of unknown length. -/
def get_length : UploadSource → Option Nat
  | .bytesData data => some data.length
  | .streamData content known => if known then some content.length else none

/-- Embedding of `upload_file` (`_file_client.py:444-474`): resolves a missing `length`
via `get_length`, truncates a `bytes` payload with `data = data[:length]`,
wraps the source as a stream, and delegates to `_upload_file_helper` with
`size = length`. -/
def uploadFile (data : UploadSource) (length : Option Nat) (chunk_size : Nat) :
    Except String (List UploadAction) :=
  let length := match length with
    | some l => some l
    | none => get_length data
  let data := match data, length with
    | .bytesData bs, some l => UploadSource.bytesData (bs.take l)
    | d, _ => d
  let stream := match data with
    | .bytesData bs => bs
    | .streamData content _ => content
  uploadFileHelper stream (length.map (fun l => (l : Int))) chunk_size

/-- The bytes put on the wire by an action list: the concatenation of the
chunk payloads (the `create_file` call carries no body). -/
def uploadedContent : List UploadAction → List Nat
  | [] => []
  | .createFile _ :: rest => uploadedContent rest
  | .uploadChunk _ payload :: rest => payload ++ uploadedContent rest

/-! ### The download guard and byte-range headers -/

/-- The range parameters handed to `StorageStreamDownloader`. -/
structure DownloadRequest where
  start_range : Option Int
  end_range : Option Int
deriving DecidableEq, Repr

/-- Embedding of `download_file` (`_file_client.py:551-607`): a `length` without an
`offset` raises `ValueError` before the downloader (and hence any request)
is constructed; otherwise `range_end = offset + length - 1` when a length
is given. -/
def downloadFile (offset length : Option Int) : Except String DownloadRequest :=
  if length.isSome && offset.isNone then
    .error "Offset value must not be None if length is set."
  else
    let range_end : Option Int :=
      match length, offset with
      | some l, some o => some (o + l - 1)
      | _, _ => none
    .ok ⟨offset, range_end⟩

/-- Embedding of `upload_range` (`_file_client.py:796-800`): the `Range` header,
`end_range = offset + length - 1` reformatted to an inclusive index. -/
def uploadRangeContentRange (offset length : Int) : String :=
  let end_range := offset + length - 1
  "bytes=" ++ toString offset ++ "-" ++ toString end_range

/-- Embedding of `get_ranges` (`_file_client.py:910-916`): no header without an offset;
`bytes=<start>-<end>` with a length, `bytes=<start>-` without one. -/
def getRangesContentRange (offset length : Option Int) : Option String :=
  match offset with
  | none => none
  | some o =>
    match length with
    | some l => some ("bytes=" ++ toString o ++ "-" ++ toString (o + l - 1))
    | none => some ("bytes=" ++ toString o ++ "-")

/-! ### Conditional Request Guard (spec §4.4) -/

/-- The error taxonomy of spec §7 as surfaced by response classification. -/
inductive ErrorKind where
  | ConditionNotMet
  | ClientAuthenticationError
  | ResourceNotFound
  | ResourceExists
  | ClientError
  | ServerError
deriving DecidableEq, Repr

/-- Modelled from the spec: `classify` of the Conditional Request Guard
(realised by `process_storage_error` / `azure.core` exception mapping,
absent from the sources).  HTTP 412 Precondition Failed is the reserved
precondition-failure status and maps to `ConditionNotMet`; every other
4xx/5xx status maps through a generic status-to-kind table; non-error
statuses classify to nothing. -/
def classifyStatus (status : Nat) : Option ErrorKind :=
  if status = 412 then some .ConditionNotMet
  else if 400 ≤ status ∧ status < 500 then
    some (if status = 401 ∨ status = 403 then .ClientAuthenticationError
      else if status = 404 then .ResourceNotFound
      else if status = 409 then .ResourceExists
      else .ClientError)
  else if 500 ≤ status ∧ status < 600 then some .ServerError
  else none

/-! ### Concurrent Transfer Coordinator result aggregation (spec §4.3, §5) -/

/-- Modelled from the spec: the Coordinator's result aggregation
(`upload_data_chunks` of `_shared/uploads`, absent from the sources)
re-sorts the chunk results, which arrive in arbitrary completion order,
into ascending `index` order before they are returned or used. -/
def aggregateResults (completed : List ChunkResult) : List ChunkResult :=
  sortByKey (fun r => r.index) completed

/-- Modelled from the spec: the Coordinator's shared-resource check (§5)
forces sequential transfer for a non-seekable source and rejects a higher
requested concurrency before any network call. -/
def checkConcurrency (seekable : Bool) (max_concurrency : Nat) : Except String Unit :=
  if !seekable && 1 < max_concurrency then
    .error "Non-seekable streams require max_concurrency of 1."
  else .ok ()

/-! ### Paged Result Cursor (spec §4.5) -/

/-- One server round trip's worth of a listing: the items plus an opaque
continuation token, absent on the final page. -/
structure PageResult (τ T : Type) where
  items : List T
  next_token : Option τ
deriving DecidableEq, Repr

/-- The cursor state: the token to send next and whether the listing is
finished. -/
structure ContinuationCursor (τ : Type) where
  token : Option τ
  exhausted : Bool
deriving DecidableEq, Repr

/-- The outcome of one `next_page()` call: the items yielded, the updated
cursor, and whether a server call was made. -/
structure PageStep (τ T : Type) where
  items : List T
  cursor : ContinuationCursor τ
  made_server_call : Bool
deriving DecidableEq, Repr

/-- Modelled from the spec: `next_page()` of the Paged Result Cursor
(§4.5), realised by `azure.core.paging.ItemPaged` / `HandlesPaged`, absent
from the sources.  An exhausted cursor produces an empty terminal page with
no server call; otherwise one server call is made with the current token,
the token is updated, and `exhausted` becomes true iff the server returned
no token. -/
def next_page {τ T : Type} (server : Option τ → PageResult τ T)
    (c : ContinuationCursor τ) : PageStep τ T :=
  if c.exhausted then ⟨[], c, false⟩
  else
    let p := server c.token
    ⟨p.items, ⟨p.next_token, p.next_token.isNone⟩, true⟩

/-- Iterate `next_page` at most `fuel` times, concatenating the items and
returning the final cursor. -/
def drainAll {τ T : Type} (server : Option τ → PageResult τ T) :
    Nat → ContinuationCursor τ → List T × ContinuationCursor τ
  | 0, c => ([], c)
  | fuel + 1, c =>
    if c.exhausted then ([], c)
    else
      let step := next_page server c
      let rest := drainAll server fuel step.cursor
      (step.items ++ rest.1, rest.2)

/-- A server serving a fixed finite sequence of pages, linked by the page
index as continuation token; only the last page carries no token. -/
def pageServer {T : Type} (pages : List (List T)) (tok : Option Nat) :
    PageResult Nat T :=
  let i := tok.getD 0
  ⟨pages.getD i [],
   if i + 1 < pages.length then some (i + 1) else none⟩

/-! ## Properties of the stable sort -/

theorem insertByKey_perm {α : Type} (k : α → Nat) (a : α) (l : List α) :
    (insertByKey k a l).Perm (a :: l) := by
  induction l with
  | nil => simp [insertByKey]
  | cons x xs ih =>
    simp only [insertByKey]
    split
    · exact (ih.cons x).trans (List.Perm.swap a x xs)
    · exact List.Perm.refl _

theorem sortByKey_perm {α : Type} (k : α → Nat) (l : List α) :
    (sortByKey k l).Perm l := by
  induction l with
  | nil => exact List.Perm.refl _
  | cons x xs ih =>
    exact (insertByKey_perm k x (sortByKey k xs)).trans (ih.cons x)

theorem insertByKey_sorted {α : Type} (k : α → Nat) (a : α) (l : List α)
    (h : l.Sorted (fun x y => k x ≤ k y)) :
    (insertByKey k a l).Sorted (fun x y => k x ≤ k y) := by
  induction l with
  | nil => simp [insertByKey]
  | cons x xs ih =>
    rw [List.sorted_cons] at h
    obtain ⟨hx, hxs⟩ := h
    simp only [insertByKey]
    split
    · rename_i hlt
      rw [List.sorted_cons]
      refine ⟨?_, ih hxs⟩
      intro b hb
      rcases List.mem_cons.mp ((insertByKey_perm k a xs).mem_iff.mp hb) with
        rfl | hmem
      · omega
      · exact hx b hmem
    · rename_i hge
      push_neg at hge
      rw [List.sorted_cons]
      refine ⟨?_, List.sorted_cons.mpr ⟨hx, hxs⟩⟩
      intro b hb
      rcases List.mem_cons.mp hb with rfl | hmem
      · exact hge
      · exact le_trans hge (hx b hmem)

theorem sortByKey_sorted {α : Type} (k : α → Nat) (l : List α) :
    (sortByKey k l).Sorted (fun x y => k x ≤ k y) := by
  induction l with
  | nil => simp [sortByKey]
  | cons x xs ih => exact insertByKey_sorted k x (sortByKey k xs) ih

theorem sorted_getLast?_max {α : Type} (k : α → Nat) :
    ∀ (l : List α), l.Sorted (fun x y => k x ≤ k y) →
      ∀ y, l.getLast? = some y → ∀ x ∈ l, k x ≤ k y := by
  intro l
  induction l with
  | nil => simp
  | cons a t ih =>
    intro hs y hy x hx
    cases t with
    | nil =>
      simp only [List.getLast?_singleton, Option.some.injEq] at hy
      simp only [List.mem_singleton] at hx
      subst hy; subst hx; exact le_refl _
    | cons b t' =>
      rw [List.sorted_cons] at hs
      rw [List.getLast?_cons_cons] at hy
      rcases List.mem_cons.mp hx with rfl | hx'
      · have hymem : y ∈ b :: t' := by
          have hy' : y ∈ (b :: t').getLast? := hy
          obtain ⟨hne, heq⟩ := List.mem_getLast?_eq_getLast hy'
          exact heq ▸ List.getLast_mem hne
        exact hs.1 y hymem
      · exact ih hs.2 y hy x hx'

theorem sortByKey_ne_nil {α : Type} (k : α → Nat) (l : List α) (h : l ≠ []) :
    sortByKey k l ≠ [] := by
  intro hnil
  have := (sortByKey_perm k l).length_eq
  rw [hnil] at this
  exact h (List.length_eq_zero.mp this.symm)

/-! ## C1: the reported metadata of a multi-chunk upload -/

/-- C1 counterexample: with two successful chunk results carrying the
same greatest `last_modified` timestamp but different etags, the value
returned by `sorted(responses, key=last_modified)[-1]` differs between two
arrival orders of the same results, so it is not independent of the order
in which chunk responses arrive. -/
theorem finalUploadResponse_order_dependent :
    ([⟨0, "etag-a", 5⟩, ⟨1, "etag-b", 5⟩] : List ChunkResult).Perm
      [⟨1, "etag-b", 5⟩, ⟨0, "etag-a", 5⟩] ∧
    finalUploadResponse [⟨0, "etag-a", 5⟩, ⟨1, "etag-b", 5⟩] ≠
      finalUploadResponse [⟨1, "etag-b", 5⟩, ⟨0, "etag-a", 5⟩] := by
  constructor
  · exact List.Perm.swap (⟨1, "etag-b", 5⟩ : ChunkResult) ⟨0, "etag-a", 5⟩ []
  · decide

/-- C1 amended: for every non-empty list of successful chunk results,
`_upload_file_helper` returns one of the results whose `last_modified`
timestamp is greatest; when the timestamps are pairwise distinct this
winner is unique, and the returned value is the same for every arrival
order of the results. -/
theorem finalUploadResponse_last_modified_winner (l : List ChunkResult)
    (h : l ≠ []) :
    ∃ r, finalUploadResponse l = some r ∧ r ∈ l ∧
      (∀ x ∈ l, x.last_modified ≤ r.last_modified) ∧
      (∀ l₂ : List ChunkResult,
        (l.map ChunkResult.last_modified).Nodup → l₂.Perm l →
        finalUploadResponse l₂ = some r) := by
  classical
  set k : ChunkResult → Nat := fun r => r.last_modified with hk
  have main : ∀ (m : List ChunkResult), m ≠ [] →
      ∃ r, finalUploadResponse m = some r ∧ r ∈ m ∧
        ∀ x ∈ m, k x ≤ k r := by
    intro m hm
    have hne := sortByKey_ne_nil k m hm
    obtain ⟨y, hy⟩ : ∃ y, (sortByKey k m).getLast? = some y :=
      ⟨_, List.getLast?_eq_getLast_of_ne_nil hne⟩
    refine ⟨y, hy, ?_, ?_⟩
    · have : y ∈ sortByKey k m := by
        have hy' : y ∈ (sortByKey k m).getLast? := hy
        obtain ⟨hne', heq⟩ := List.mem_getLast?_eq_getLast hy'
        exact heq ▸ List.getLast_mem hne'
      exact (sortByKey_perm k m).mem_iff.mp this
    · intro x hx
      exact sorted_getLast?_max k _ (sortByKey_sorted k m) y hy x
        ((sortByKey_perm k m).mem_iff.mpr hx)
  obtain ⟨r, hr, hrmem, hrmax⟩ := main l h
  refine ⟨r, hr, hrmem, hrmax, ?_⟩
  intro l₂ hnd hperm
  have h₂ : l₂ ≠ [] := by
    intro hnil
    rw [hnil] at hperm
    exact h hperm.symm.eq_nil
  obtain ⟨r₂, hr₂, hr₂mem, hr₂max⟩ := main l₂ h₂
  have hr₂mem' : r₂ ∈ l := hperm.mem_iff.mp hr₂mem
  have hkk : k r = k r₂ :=
    le_antisymm (hr₂max r (hperm.mem_iff.mpr hrmem)) (hrmax r₂ hr₂mem')
  have : r₂ = r := List.inj_on_of_nodup_map hnd hr₂mem' hrmem hkk.symm
  rw [hr₂, this]

/-- C3: for every completion order (permutation) of the per-chunk
results of the dispatched workers, the Coordinator's aggregated sequence is
a permutation of the dispatched results and is sorted in ascending chunk
`index` order. -/
theorem aggregateResults_sorted (worker : ChunkDescriptor → ChunkResult)
    (descriptors : List ChunkDescriptor) (completed : List ChunkResult)
    (h : completed.Perm (descriptors.map worker)) :
    (aggregateResults completed).Perm (descriptors.map worker) ∧
    (aggregateResults completed).Sorted (fun a b => a.index ≤ b.index) :=
  ⟨(sortByKey_perm _ completed).trans h, sortByKey_sorted _ completed⟩

/-- Witness for C1 (amended) at a concrete two-chunk result list. -/
theorem finalUploadResponse_last_modified_winner_witness :
    (([⟨0, "e0", 3⟩, ⟨1, "e1", 7⟩] : List ChunkResult) ≠ []) ∧
    (∃ r, finalUploadResponse [⟨0, "e0", 3⟩, ⟨1, "e1", 7⟩] = some r ∧
      r ∈ ([⟨0, "e0", 3⟩, ⟨1, "e1", 7⟩] : List ChunkResult) ∧
      (∀ x ∈ ([⟨0, "e0", 3⟩, ⟨1, "e1", 7⟩] : List ChunkResult),
        x.last_modified ≤ r.last_modified) ∧
      (∀ l₂ : List ChunkResult,
        (([⟨0, "e0", 3⟩, ⟨1, "e1", 7⟩] : List ChunkResult).map
          ChunkResult.last_modified).Nodup →
        l₂.Perm [⟨0, "e0", 3⟩, ⟨1, "e1", 7⟩] →
        finalUploadResponse l₂ = some r)) :=
  ⟨by decide, finalUploadResponse_last_modified_winner _ (by decide)⟩

/-- Witness for C3 at a concrete reversed completion order. -/
theorem aggregateResults_sorted_witness :
    (([⟨1, "e1", 2⟩, ⟨0, "e0", 1⟩] : List ChunkResult).Perm
      (([⟨0, 0, 4, false⟩, ⟨1, 4, 2, true⟩] : List ChunkDescriptor).map
        (fun d => (⟨d.index, "e" ++ toString d.index, d.index + 1⟩ : ChunkResult)))) ∧
    ((aggregateResults [⟨1, "e1", 2⟩, ⟨0, "e0", 1⟩]).Perm
      (([⟨0, 0, 4, false⟩, ⟨1, 4, 2, true⟩] : List ChunkDescriptor).map
        (fun d => (⟨d.index, "e" ++ toString d.index, d.index + 1⟩ : ChunkResult))) ∧
    (aggregateResults [⟨1, "e1", 2⟩, ⟨0, "e0", 1⟩]).Sorted
      (fun a b => a.index ≤ b.index)) :=
  ⟨by decide, aggregateResults_sorted _ _ _ (by decide)⟩

/-! ## Properties of the chunk layout -/

theorem sumLen_nil : sumLen [] = 0 := rfl

theorem sumLen_cons (d : ChunkDescriptor) (ds : List ChunkDescriptor) :
    sumLen (d :: ds) = d.length + sumLen ds := by
  simp [sumLen]

theorem getLast?_cons_of_ne_nil {α : Type} (a : α) {l : List α} (h : l ≠ []) :
    (a :: l).getLast? = l.getLast? := by
  cases l with
  | nil => exact absurd rfl h
  | cons b t => exact List.getLast?_cons_cons

theorem dropLast_cons_of_ne_nil {α : Type} (a : α) {l : List α} (h : l ≠ []) :
    (a :: l).dropLast = a :: l.dropLast := by
  cases l with
  | nil => exact absurd rfl h
  | cons b t => rfl

theorem chunksFrom_ne_nil (cpred idx start remaining : Nat) :
    chunksFrom cpred idx start remaining ≠ [] := by
  rw [chunksFrom]
  split <;> simp

theorem chunksFrom_sumLen (cpred : Nat) :
    ∀ remaining idx start, sumLen (chunksFrom cpred idx start remaining) = remaining := by
  intro remaining
  induction remaining using Nat.strong_induction_on with
  | _ remaining ih =>
    intro idx start
    rw [chunksFrom]
    split
    · simp [sumLen]
    · rename_i hgt
      rw [sumLen_cons, ih (remaining - (cpred + 1)) (by omega)]
      show cpred + 1 + (remaining - (cpred + 1)) = remaining
      omega

theorem chunksFrom_contiguous (cpred : Nat) :
    ∀ remaining idx start,
      contiguousFrom start (chunksFrom cpred idx start remaining) := by
  intro remaining
  induction remaining using Nat.strong_induction_on with
  | _ remaining ih =>
    intro idx start
    rw [chunksFrom]
    split
    · exact ⟨rfl, trivial⟩
    · exact ⟨rfl, ih (remaining - (cpred + 1)) (by omega) _ _⟩

theorem chunksFrom_length (cpred : Nat) :
    ∀ remaining idx start, 0 < remaining →
      (chunksFrom cpred idx start remaining).length =
        (remaining + cpred) / (cpred + 1) := by
  intro remaining
  induction remaining using Nat.strong_induction_on with
  | _ remaining ih =>
    intro idx start hpos
    rw [chunksFrom]
    split
    · rename_i hle
      have h1 : remaining + cpred = (remaining - 1) + (cpred + 1) := by omega
      rw [List.length_singleton, h1, Nat.add_div_right _ (Nat.succ_pos cpred),
        Nat.div_eq_of_lt (by omega)]
    · rename_i hgt
      push_neg at hgt
      rw [List.length_cons, ih (remaining - (cpred + 1)) (by omega) _ _ (by omega)]
      have h1 : remaining + cpred = (remaining - (cpred + 1) + cpred) + (cpred + 1) := by
        omega
      rw [h1, Nat.add_div_right _ (Nat.succ_pos cpred)]

theorem chunksFrom_getLast_final (cpred : Nat) :
    ∀ remaining idx start d,
      (chunksFrom cpred idx start remaining).getLast? = some d →
      d.is_final = true := by
  intro remaining
  induction remaining using Nat.strong_induction_on with
  | _ remaining ih =>
    intro idx start d hd
    rw [chunksFrom] at hd
    split at hd
    · simp only [List.getLast?_singleton, Option.some.injEq] at hd
      rw [← hd]
    · rw [getLast?_cons_of_ne_nil _ (chunksFrom_ne_nil _ _ _ _)] at hd
      exact ih (remaining - (cpred + 1)) (by omega) _ _ d hd

theorem chunksFrom_dropLast (cpred : Nat) :
    ∀ remaining idx start,
      ∀ d ∈ (chunksFrom cpred idx start remaining).dropLast,
        d.is_final = false ∧ d.length = cpred + 1 := by
  intro remaining
  induction remaining using Nat.strong_induction_on with
  | _ remaining ih =>
    intro idx start d hd
    rw [chunksFrom] at hd
    split at hd
    · simp at hd
    · rw [dropLast_cons_of_ne_nil _ (chunksFrom_ne_nil _ _ _ _)] at hd
      rcases List.mem_cons.mp hd with rfl | hd'
      · exact ⟨rfl, rfl⟩
      · exact ih (remaining - (cpred + 1)) (by omega) _ _ d hd'

/-! ## Coverage properties of contiguous descriptor lists -/

theorem covers_lower :
    ∀ (ds : List ChunkDescriptor) (s b : Nat) (d : ChunkDescriptor),
      contiguousFrom s ds → d ∈ ds → d.covers b → s ≤ b := by
  intro ds
  induction ds with
  | nil => simp
  | cons x rest ih =>
    intro s b d hc hm hcov
    obtain ⟨hx, hrest⟩ := hc
    rcases List.mem_cons.mp hm with rfl | hm'
    · obtain ⟨h1, _⟩ := hcov
      omega
    · have := ih (s + x.length) b d hrest hm' hcov
      omega

theorem covered_iff :
    ∀ (ds : List ChunkDescriptor) (s b : Nat), contiguousFrom s ds →
      ((∃ d ∈ ds, d.covers b) ↔ (s ≤ b ∧ b < s + sumLen ds)) := by
  intro ds
  induction ds with
  | nil =>
    intro s b _
    simp [sumLen]
  | cons x rest ih =>
    intro s b hc
    obtain ⟨hx, hrest⟩ := hc
    rw [sumLen_cons]
    constructor
    · rintro ⟨d, hd, hcov⟩
      rcases List.mem_cons.mp hd with rfl | hd'
      · obtain ⟨h1, h2⟩ := hcov
        omega
      · have := (ih (s + x.length) b hrest).mp ⟨d, hd', hcov⟩
        omega
    · rintro ⟨h1, h2⟩
      by_cases hb : b < s + x.length
      · exact ⟨x, List.mem_cons_self x rest, by omega, by omega⟩
      · obtain ⟨d, hd, hcov⟩ :=
          (ih (s + x.length) b hrest).mpr ⟨by omega, by omega⟩
        exact ⟨d, List.mem_cons_of_mem x hd, hcov⟩

theorem covered_unique :
    ∀ (ds : List ChunkDescriptor) (s b : Nat) (d₁ d₂ : ChunkDescriptor),
      contiguousFrom s ds → d₁ ∈ ds → d₂ ∈ ds →
      d₁.covers b → d₂.covers b → d₁ = d₂ := by
  intro ds
  induction ds with
  | nil => simp
  | cons x rest ih =>
    intro s b d₁ d₂ hc h₁ h₂ hcov₁ hcov₂
    obtain ⟨hx, hrest⟩ := hc
    rcases List.mem_cons.mp h₁ with rfl | h₁' <;>
      rcases List.mem_cons.mp h₂ with rfl | h₂'
    · rfl
    · exfalso
      obtain ⟨_, hlt⟩ := hcov₁
      have := covers_lower rest (s + d₁.length) b d₂ hrest h₂' hcov₂
      omega
    · exfalso
      obtain ⟨_, hlt⟩ := hcov₂
      have := covers_lower rest (s + d₂.length) b d₁ hrest h₁' hcov₁
      omega
    · exact ih (s + x.length) b d₁ d₂ hrest h₁' h₂' hcov₁ hcov₂

theorem chunk_payloads_join (content : List Nat) :
    ∀ (ds : List ChunkDescriptor) (s : Nat), contiguousFrom s ds →
      ((ds.map fun d => (content.drop d.start_offset).take d.length).flatten)
        = (content.drop s).take (sumLen ds) := by
  intro ds
  induction ds with
  | nil => simp [sumLen]
  | cons x rest ih =>
    intro s hc
    obtain ⟨hx, hrest⟩ := hc
    simp only [List.map_cons, List.flatten_cons, sumLen_cons]
    rw [ih (s + x.length) hrest, hx, List.take_add]
    congr 1
    rw [List.drop_drop, Nat.add_comm]

/-! ## C2 and C6: the Range Partitioner's plan -/

/-- C2: for every `total_size` strictly above the single-shot threshold
and every positive `chunk_size`, `plan` returns exactly
`ceil(total_size / chunk_size)` descriptors whose inclusive ranges are
contiguous, pairwise non-overlapping, and cover exactly `[0, total_size-1]`,
with all but the last descriptor full-sized and non-final and the last one
truncated to the remainder (the lengths sum to `total_size`) and flagged
final. -/
theorem plan_multi_chunk_partition (total chunk threshold : Nat)
    (hc : 0 < chunk) (ht : threshold < total) :
    ∃ ds, plan total chunk threshold = some ds ∧
      ds.length = (total + chunk - 1) / chunk ∧
      contiguousFrom 0 ds ∧
      sumLen ds = total ∧
      (∀ b : Nat, (∃ d ∈ ds, d.covers b) ↔ b < total) ∧
      (∀ d₁ ∈ ds, ∀ d₂ ∈ ds, ∀ b : Nat,
        d₁.covers b → d₂.covers b → d₁ = d₂) ∧
      (∀ hne : ds ≠ [], (ds.getLast hne).is_final = true) ∧
      (∀ d ∈ ds.dropLast, d.is_final = false ∧ d.length = chunk) := by
  obtain ⟨cpred, rfl⟩ : ∃ c, chunk = c + 1 := ⟨chunk - 1, by omega⟩
  refine ⟨chunksFrom cpred 0 0 total, ?_, ?_, ?_, ?_, ?_, ?_, ?_, ?_⟩
  · simp [plan, Nat.not_le.mpr ht]
  · rw [chunksFrom_length cpred total 0 0 (by omega)]
    congr 1
  · exact chunksFrom_contiguous cpred total 0 0
  · exact chunksFrom_sumLen cpred total 0 0
  · intro b
    have h := covered_iff (chunksFrom cpred 0 0 total) 0 b
      (chunksFrom_contiguous cpred total 0 0)
    rw [chunksFrom_sumLen cpred total 0 0] at h
    rw [h]
    omega
  · intro d₁ h₁ d₂ h₂ b hcov₁ hcov₂
    exact covered_unique (chunksFrom cpred 0 0 total) 0 b d₁ d₂
      (chunksFrom_contiguous cpred total 0 0) h₁ h₂ hcov₁ hcov₂
  · intro hne
    exact chunksFrom_getLast_final cpred total 0 0 _
      (List.getLast?_eq_getLast_of_ne_nil hne)
  · exact chunksFrom_dropLast cpred total 0 0

/-- Witness for C2 at the spec's scenario `total_size = 2048`,
`chunk_size = 1024`, `single_shot_threshold = 512`. -/
theorem plan_multi_chunk_partition_witness :
    (0 < 1024 ∧ 512 < 2048) ∧
    (∃ ds, plan 2048 1024 512 = some ds ∧
      ds.length = (2048 + 1024 - 1) / 1024 ∧
      contiguousFrom 0 ds ∧
      sumLen ds = 2048 ∧
      (∀ b : Nat, (∃ d ∈ ds, d.covers b) ↔ b < 2048) ∧
      (∀ d₁ ∈ ds, ∀ d₂ ∈ ds, ∀ b : Nat,
        d₁.covers b → d₂.covers b → d₁ = d₂) ∧
      (∀ hne : ds ≠ [], (ds.getLast hne).is_final = true) ∧
      (∀ d ∈ ds.dropLast, d.is_final = false ∧ d.length = 1024)) :=
  ⟨⟨by decide, by decide⟩,
    plan_multi_chunk_partition 2048 1024 512 (by decide) (by decide)⟩

/-- C6: a zero-size upload issues exactly the single `create_file`
request and no chunk uploads, and the Partitioner's plan for
`total_size = 0` is the single zero-length descriptor
`start = 0, length = 0`, flagged final. -/
theorem zero_size_upload_single_request (stream : List Nat)
    (chunk threshold : Nat) (hc : 0 < chunk) :
    uploadFileHelper stream (some 0) chunk = .ok [.createFile 0] ∧
    plan 0 chunk threshold = some [⟨0, 0, 0, true⟩] := by
  obtain ⟨cpred, rfl⟩ : ∃ c, chunk = c + 1 := ⟨chunk - 1, by omega⟩
  exact ⟨rfl, by simp [plan]⟩

/-- Witness for C6 at a concrete stream and configuration. -/
theorem zero_size_upload_single_request_witness :
    0 < 4 ∧
    (uploadFileHelper [9, 9] (some 0) 4 = .ok [.createFile 0] ∧
      plan 0 4 512 = some [⟨0, 0, 0, true⟩]) :=
  ⟨by decide, zero_size_upload_single_request [9, 9] 4 512 (by decide)⟩

/-! ## C10: explicit-length truncation of a bytes upload -/

theorem uploadedContent_map_chunks (f : ChunkDescriptor → List Nat) :
    ∀ ds : List ChunkDescriptor,
      uploadedContent (ds.map fun d => .uploadChunk d (f d)) =
        (ds.map f).flatten := by
  intro ds
  induction ds with
  | nil => rfl
  | cons x rest ih =>
    simp only [List.map_cons, uploadedContent, List.flatten_cons, ih]

/-- C10: for a `bytes` payload and an explicitly supplied `length` with
`length ≤ len(data)`, `upload_file` silently truncates: it declares size
`length` in `create_file` and the chunk payloads put on the wire are
exactly the first `length` bytes of `data`. -/
theorem upload_bytes_truncated (data : List Nat) (length chunk : Nat)
    (hlen : length ≤ data.length) (hc : 0 < chunk) :
    ∃ actions, uploadFile (.bytesData data) (some length) chunk = .ok actions ∧
      actions.head? = some (.createFile length) ∧
      uploadedContent actions = data.take length ∧
      (uploadedContent actions).length = length := by
  obtain ⟨cpred, rfl⟩ : ∃ c, chunk = c + 1 := ⟨chunk - 1, by omega⟩
  have hred : uploadFile (.bytesData data) (some length) (cpred + 1) =
      uploadFileHelper (data.take length) (some (length : Int)) (cpred + 1) := rfl
  have htake : (data.take length).length = length := by
    rw [List.length_take]
    omega
  by_cases h0 : length = 0
  · subst h0
    exact ⟨[.createFile 0], by rw [hred]; rfl, rfl, rfl, rfl⟩
  · have hcontent : uploadedContent ((chunksFor length (cpred + 1)).map
        (fun d => .uploadChunk d
          (((data.take length).drop d.start_offset).take d.length))) =
        data.take length := by
      rw [uploadedContent_map_chunks]
      have := chunk_payloads_join (data.take length)
        (chunksFrom cpred 0 0 length) 0
        (chunksFrom_contiguous cpred length 0 0)
      rw [show chunksFor length (cpred + 1) = chunksFrom cpred 0 0 length from rfl,
        this, chunksFrom_sumLen cpred length 0 0, List.drop_zero,
        List.take_of_length_le (by omega)]
    refine ⟨.createFile length :: (chunksFor length (cpred + 1)).map
      (fun d => .uploadChunk d
        (((data.take length).drop d.start_offset).take d.length)), ?_, rfl, ?_, ?_⟩
    · rw [hred]
      simp only [uploadFileHelper]
      rw [if_neg (by omega), if_neg (by omega)]
      simp
    · show uploadedContent ((chunksFor length (cpred + 1)).map
        (fun d => .uploadChunk d
          (((data.take length).drop d.start_offset).take d.length))) =
        data.take length
      exact hcontent
    · show (uploadedContent ((chunksFor length (cpred + 1)).map
        (fun d => .uploadChunk d
          (((data.take length).drop d.start_offset).take d.length)))).length = length
      rw [hcontent, htake]

/-! ## C8: unknown total size on the file upload path -/

/-- C8 counterexample: with a streamed source of unknown length and
no explicit length, the upload does not proceed at all: the call fails with
`ValueError` before any request is issued. -/
theorem unknown_size_upload_rejected_example :
    uploadFile (.streamData [1, 2, 3] false) none 4 =
      .error "A content size must be specified for a File." := rfl

/-- C8 amended: when `total_size` is unknown (a streamed source whose
length `get_length` cannot determine and no explicit length), the file
upload path does not proceed: `_upload_file_helper` raises
`ValueError("A content size must be specified for a File.")` before any
chunk descriptor is generated or request issued. -/
theorem unknown_size_upload_rejected (content : List Nat) (chunk : Nat) :
    uploadFile (.streamData content false) none chunk =
      .error "A content size must be specified for a File." := rfl

/-- Witness for C10 at `data = [1,2,3,4,5]`, `length = 3`, `chunk = 2`. -/
theorem upload_bytes_truncated_witness :
    (3 ≤ ([1, 2, 3, 4, 5] : List Nat).length ∧ 0 < 2) ∧
    (∃ actions, uploadFile (.bytesData [1, 2, 3, 4, 5]) (some 3) 2 =
        .ok actions ∧
      actions.head? = some (.createFile 3) ∧
      uploadedContent actions = ([1, 2, 3, 4, 5] : List Nat).take 3 ∧
      (uploadedContent actions).length = 3) :=
  ⟨⟨by decide, by decide⟩,
    upload_bytes_truncated [1, 2, 3, 4, 5] 3 2 (by decide) (by decide)⟩

/-! ## C9: configuration errors precede any network call -/

/-- C9: the configuration errors are raised synchronously, before any
request description is produced: a download `length` without an `offset`
fails with `ValueError` (no `DownloadRequest` is built), a zero chunk size
yields no plan, and a non-seekable source with requested concurrency above
1 is rejected. -/
theorem configuration_errors_before_network :
    (∀ l : Int, downloadFile none (some l) =
      .error "Offset value must not be None if length is set.") ∧
    (∀ total threshold : Nat, plan total 0 threshold = none) ∧
    (∀ n : Nat, 1 < n → checkConcurrency false n =
      .error "Non-seekable streams require max_concurrency of 1.") := by
  refine ⟨fun l => rfl, fun t th => rfl, fun n hn => ?_⟩
  simp [checkConcurrency, hn]

/-- Witness for C9 at `length = 5`, `chunk_size = 0`, `concurrency = 2`. -/
theorem configuration_errors_before_network_witness :
    downloadFile none (some 5) =
      .error "Offset value must not be None if length is set." ∧
    plan 7 0 3 = none ∧ 1 < 2 ∧
    checkConcurrency false 2 =
      .error "Non-seekable streams require max_concurrency of 1." :=
  ⟨configuration_errors_before_network.1 5,
   configuration_errors_before_network.2.1 7 3,
   by decide,
   configuration_errors_before_network.2.2 2 (by decide)⟩

/-! ## C7: the byte-range header format -/

/-- C7: both `upload_range` and `get_ranges` build the byte-range
header as `bytes=<start>-<end>` with `end = start + length - 1` inclusive
(so the range holds exactly `length` bytes), and `get_ranges` with no
length builds the open-ended `bytes=<start>-`. -/
theorem byte_range_header_inclusive (start len : Int) :
    (∃ e : Int, e = start + len - 1 ∧ e - start + 1 = len ∧
      uploadRangeContentRange start len =
        "bytes=" ++ toString start ++ "-" ++ toString e ∧
      getRangesContentRange (some start) (some len) =
        some ("bytes=" ++ toString start ++ "-" ++ toString e)) ∧
    getRangesContentRange (some start) none =
      some ("bytes=" ++ toString start ++ "-") :=
  ⟨⟨start + len - 1, rfl, by omega, rfl, rfl⟩, rfl⟩

/-! ## C5: classification of precondition failures -/

theorem classifyStatus_cnm_iff (status : Nat) :
    classifyStatus status = some .ConditionNotMet ↔ status = 412 := by
  unfold classifyStatus
  split_ifs <;> simp_all

theorem classifyStatus_other (status : Nat) (h4 : 400 ≤ status)
    (h6 : status < 600) (hne : status ≠ 412) :
    ∃ k, classifyStatus status = some k ∧ k ≠ ErrorKind.ConditionNotMet := by
  unfold classifyStatus
  split_ifs <;> first
    | exact absurd (by assumption) hne
    | exact ⟨_, rfl, by decide⟩
    | omega

/-- C5: `classify` returns `ConditionNotMet` exactly for the reserved
precondition-failure status 412; every other 4xx/5xx status classifies to
some error kind different from `ConditionNotMet`. -/
theorem classify_condition_not_met :
    (∀ status : Nat,
      classifyStatus status = some .ConditionNotMet ↔ status = 412) ∧
    (∀ status : Nat, 400 ≤ status → status < 600 → status ≠ 412 →
      ∃ k, classifyStatus status = some k ∧ k ≠ ErrorKind.ConditionNotMet) :=
  ⟨classifyStatus_cnm_iff, classifyStatus_other⟩

/-- Witness for C5 at statuses 412 and 404. -/
theorem classify_condition_not_met_witness :
    classifyStatus 412 = some ErrorKind.ConditionNotMet ∧
    (400 ≤ 404 ∧ 404 < 600 ∧ 404 ≠ 412) ∧
    (∃ k, classifyStatus 404 = some k ∧ k ≠ ErrorKind.ConditionNotMet) :=
  ⟨(classify_condition_not_met.1 412).mpr rfl,
   ⟨by decide, by decide, by decide⟩,
   classify_condition_not_met.2 404 (by decide) (by decide) (by decide)⟩

/-! ## C4: the Paged Result Cursor drains every page, then terminates -/

theorem drainAll_exhausted {τ T : Type} (server : Option τ → PageResult τ T) :
    ∀ (fuel : Nat) (c : ContinuationCursor τ), c.exhausted = true →
      drainAll server fuel c = ([], c) := by
  intro fuel c h
  cases fuel with
  | zero => rfl
  | succ n => simp [drainAll, h]

theorem drainAll_pages {T : Type} (pages : List (List T)) :
    ∀ (fuel i : Nat) (tok : Option Nat), tok.getD 0 = i →
      i < pages.length → pages.length = i + fuel →
      drainAll (pageServer pages) fuel ⟨tok, false⟩ =
        ((pages.drop i).flatten, ⟨none, true⟩) := by
  intro fuel
  induction fuel with
  | zero =>
    intro i tok _ hi hlen
    omega
  | succ n ih =>
    intro i tok htok hi hlen
    rw [show drainAll (pageServer pages) (n + 1) ⟨tok, false⟩ =
        ((pageServer pages tok).items ++
          (drainAll (pageServer pages) n
            ⟨(pageServer pages tok).next_token,
             (pageServer pages tok).next_token.isNone⟩).1,
         (drainAll (pageServer pages) n
            ⟨(pageServer pages tok).next_token,
             (pageServer pages tok).next_token.isNone⟩).2) from rfl]
    have hitems : (pageServer pages tok).items = pages.getD i [] := by
      simp [pageServer, htok]
    have htok' : (pageServer pages tok).next_token =
        if i + 1 < pages.length then some (i + 1) else none := by
      simp [pageServer, htok]
    have hdrop : pages.drop i = pages.getD i [] :: pages.drop (i + 1) := by
      rw [List.drop_eq_getElem_cons hi, List.getD_eq_getElem pages [] hi]
    by_cases hnext : i + 1 < pages.length
    · rw [hitems, htok', if_pos hnext]
      simp only [Option.isNone_some]
      rw [ih (i + 1) (some (i + 1)) rfl hnext (by omega)]
      rw [hdrop, List.flatten_cons]
    · rw [hitems, htok', if_neg hnext]
      simp only [Option.isNone_none]
      rw [drainAll_exhausted _ n ⟨none, true⟩ rfl]
      rw [hdrop, List.flatten_cons,
        List.drop_eq_nil_of_le (by omega), List.flatten_nil]

/-- C4: a cursor fed a finite sequence of pages, of which only the
last carries no continuation token, yields exactly the concatenation of
all pages' items and ends exhausted; a further `next_page()` call then
produces an empty terminal page and makes no server call. -/
theorem cursor_yields_all_then_terminates {T : Type} (pages : List (List T))
    (h : pages ≠ []) :
    drainAll (pageServer pages) pages.length ⟨none, false⟩ =
      (pages.flatten, ⟨none, true⟩) ∧
    next_page (pageServer pages) ⟨none, true⟩ =
      ⟨[], ⟨none, true⟩, false⟩ := by
  refine ⟨?_, rfl⟩
  have := drainAll_pages pages pages.length 0 none rfl
    (List.length_pos.mpr h) (by omega)
  simpa using this

/-- Witness for C4 at the two-page listing `[[1, 2], [3]]`. -/
theorem cursor_yields_all_then_terminates_witness :
    (([[1, 2], [3]] : List (List Nat)) ≠ []) ∧
    (drainAll (pageServer [[1, 2], [3]])
        ([[1, 2], [3]] : List (List Nat)).length ⟨none, false⟩ =
      (([[1, 2], [3]] : List (List Nat)).flatten, ⟨none, true⟩) ∧
    next_page (pageServer [[1, 2], [3]]) ⟨none, true⟩ =
      ⟨[], ⟨none, true⟩, false⟩) :=
  ⟨by decide, cursor_yields_all_then_terminates [[1, 2], [3]] (by decide)⟩

end AzureTransfer
